import Mathlib

/-!
Verification of the go-parts repository (Debian run-parts directory merger).

The Go sources `parts.go` and `mode.go` are shallowly embedded below.

Modelling conventions:
  * `FileMode` (a Go `uint32` bit pattern) is a `Nat`; all bit constants are
    the exact values of the Go `os` package constants and of the extra
    `ModeRegular` bit declared in `mode.go` (`1 << 19`, from `1 << (31-iota)`
    with `iota = 12` at that line).
  * The filesystem is an explicit record of query functions (`stat`, `lstat`,
    directory listing, file open), each returning `Option`/data; `none` is a
    Go non-nil error.  File contents are byte lists (`List Nat`).
  * A compiled `*regexp.Regexp` is modelled as its `MatchString` function,
    `String → Bool`; the `nil` regexp passed by `Readdirnames` for directly
    specified paths is `Option.none`.
  * `filepath.Join path name` is modelled as `path ++ "/" ++ name`
    (`filepath.Clean` is the identity on the already-clean concatenations
    produced here), and `filepath.Base` is modelled faithfully on its
    Unix code path (empty string, trailing-slash and all-slash handling).
  * Go's unspecified map iteration order followed by the unstable
    `sort.Sort(pathsByBasename names)` is modelled as an insertion-ordered
    association list followed by `List.mergeSort`: once duplicates are
    removed the base names are pairwise distinct, so every correct sort of
    the collected values yields the same list and the model is exact.
  * `strings.Compare a b < 0` is the executable lexicographic test
    `strLt a.data b.data` below.
  * Go errors carry no information used by the claims, so a fallible call
    is `Option`-valued; a runtime panic (out-of-range slice, nil interface
    dereference) is the dedicated `GoResult.panic` / `ReadResult` outcome.
-/

namespace Parts

/-! ### mode.go: bit constants and predicates -/

/-- Bit constants of Go's `os.FileMode` (mode.go wraps these one for one). -/
def ModeDir : Nat := 2 ^ 31

def ModeAppend : Nat := 2 ^ 30

def ModeExclusive : Nat := 2 ^ 29

def ModeTemporary : Nat := 2 ^ 28

def ModeSymlink : Nat := 2 ^ 27

def ModeDevice : Nat := 2 ^ 26

def ModeNamedPipe : Nat := 2 ^ 25

def ModeSocket : Nat := 2 ^ 24

def ModeSetuid : Nat := 2 ^ 23

def ModeSetgid : Nat := 2 ^ 22

def ModeCharDevice : Nat := 2 ^ 21

def ModeSticky : Nat := 2 ^ 20

/-- mode.go: `ModeRegular = 1 << (31 - iota)` with `iota = 12` on that line. -/
def ModeRegular : Nat := 2 ^ 19

/-- mode.go: mask for the type bits of the extended `parts.FileMode`. -/
def ModeType : Nat :=
  ModeDir ||| ModeSymlink ||| ModeNamedPipe ||| ModeSocket ||| ModeDevice ||| ModeRegular

/-- Unix permission bits, `0777`. -/
def ModePerm : Nat := 0o777

/-- Go `os.ModeType` (includes `ModeCharDevice` and `ModeIrregular = 1<<19`). -/
def osModeType : Nat :=
  ModeDir ||| ModeSymlink ||| ModeNamedPipe ||| ModeSocket ||| ModeDevice |||
    ModeCharDevice ||| 2 ^ 19

/-- Go `os.FileMode.IsRegular`: no type bit of `os.ModeType` is set. -/
def osIsRegular (m : Nat) : Bool := m &&& osModeType == 0

/-- mode.go `FileMode.IsDir`. -/
def IsDir (m : Nat) : Bool := m &&& ModeDir != 0

/-- mode.go `FileMode.IsRegular` (explicit bit, or no type bit at all). -/
def IsRegular (m : Nat) : Bool :=
  if m &&& ModeRegular != 0 then true
  else if m &&& ModeType == 0 then true
  else false

/-- mode.go `FileMode.Perm`. -/
def Perm (m : Nat) : Nat := m &&& ModePerm

/-- mode.go `FileMode.IsExecutable`. -/
def IsExecutable (m : Nat) : Bool := IsRegular m && (m &&& 0o111 != 0)

/-- parts.go `StatMode` / `LstatMode` adjustment applied to the mode
returned by the filesystem: `fileInfo.Mode().IsRegular()` adds the
explicit `ModeRegular` bit. -/
def statAdjust (m : Nat) : Nat :=
  if osIsRegular m then m ||| ModeRegular else m

/-- mode.go `FileInfo.Mode`: returns the file mode bits of the file with an
adjustment made for regular files. -/
def FileInfoMode (m : Nat) : Nat :=
  if m &&& osModeType == 0 then ModeRegular else m

/-! ### The filesystem collaborator -/

/-- Abstract filesystem: `stat`/`lstat` return the raw `os.FileMode` bit
pattern (`none` = error), `readDir` the base names of a directory's children
(`os.File.Readdirnames(0)`; `none` = open or list error), `openFile` an open
file (`none` = open error) as a pair of its `Close()` success flag and its
byte contents. -/
structure FS where
  stat : String → Option Nat
  lstat : String → Option Nat
  readDir : String → Option (List String)
  openFile : String → Option (Bool × List Nat)

/-- parts.go `StatMode`. -/
def StatMode (fs : FS) (name : String) : Option Nat :=
  (fs.stat name).map statAdjust

/-- parts.go `LstatMode`. -/
def LstatMode (fs : FS) (name : String) : Option Nat :=
  (fs.lstat name).map statAdjust

/-! ### Paths: `filepath.Join` and `filepath.Base` -/

/-- `filepath.Join path name` on the clean inputs arising here. -/
def pjoin (path name : String) : String := path ++ "/" ++ name

/-- Drop trailing `'/'` characters (the stripping loop of `filepath.Base`). -/
def stripTrail (l : List Char) : List Char :=
  (l.reverse.dropWhile (fun c => c == '/')).reverse

/-- The characters after the last `'/'`. -/
def lastComp (l : List Char) : List Char :=
  (l.reverse.takeWhile (fun c => c != '/')).reverse

/-- `filepath.Base` on Unix: empty path gives `"."`, trailing slashes are
stripped, the part after the last slash is returned, a path of only
slashes gives `"/"`. -/
def Base (s : String) : String :=
  if s.data = [] then ⟨['.']⟩
  else if lastComp (stripTrail s.data) = [] then ⟨['/']⟩
  else ⟨lastComp (stripTrail s.data)⟩

/-! ### `strings.Compare` -/

/-- `strLt a b = true` iff `strings.Compare ⟨a⟩ ⟨b⟩ < 0`: lexicographic
comparison of the character sequences. -/
def strLt : List Char → List Char → Bool
  | [], [] => false
  | [], _ :: _ => true
  | _ :: _, [] => false
  | a :: as, b :: bs =>
    if a.toNat < b.toNat then true
    else if b.toNat < a.toNat then false
    else strLt as bs

/-- parts.go `pathsByBasename.Less i j`:
`strings.Compare(filepath.Base(paths[i]), filepath.Base(paths[j])) < 0`. -/
def baseLess (a b : String) : Bool := strLt (Base a).data (Base b).data

/-! ### Config and the filter predicate (parts.go) -/

/-- parts.go `Config`.  `RegExpFilter` is the compiled regexp's
`MatchString` function. -/
structure Config where
  Reverse : Bool
  ModeTypeFilter : Nat
  ModePermFilter : Nat
  RegExpFilter : String → Bool

/-- parts.go `Parts.filter`: the `regExp` argument is `none` when Go passes
`nil` (directly specified paths). -/
def filter (cfg : Config) (name : String) (mode : Nat)
    (regExp : Option (String → Bool)) : Bool :=
  if (match regExp with
      | some re => !(re name)
      | none => false) then false
  else if mode &&& cfg.ModePermFilter == 0 then false
  else if mode &&& cfg.ModeTypeFilter == 0 then false
  else true

/-! ### Readdirnames (parts.go) -/

/-- The accumulated `foundNames` map, as an insertion-ordered association
list from base name to full path. -/
abbrev FoundNames := List (String × String)

/-- `_, ok := foundNames[k]` and the map read, in one operation. -/
def lookupName (found : FoundNames) (k : String) : Option String :=
  match found.find? (fun e => e.1 == k) with
  | some e => some e.2
  | none => none

/-- The body of the inner loop of `Readdirnames` over one child `fileName`
of directory `path`: stat the joined path (an error aborts the whole
resolution), skip the name if already present, insert it if it passes the
filter (with the configured regexp). -/
def insertChild (fs : FS) (cfg : Config) (path : String)
    (found : FoundNames) (fileName : String) : Option FoundNames :=
  match StatMode fs (pjoin path fileName) with
  | none => none
  | some mode =>
    if (lookupName found fileName).isSome then some found
    else if filter cfg fileName mode (some cfg.RegExpFilter) then
      some (found ++ [(fileName, pjoin path fileName)])
    else some found

/-- The body of the outer loop of `Readdirnames` over one configured
`path`: stat it (an error aborts), then either walk its children (directory
case) or consider the path itself (with a `nil` regexp). -/
def processPath (fs : FS) (cfg : Config) (found : FoundNames)
    (path : String) : Option FoundNames :=
  match StatMode fs path with
  | none => none
  | some mode =>
    if IsDir mode then
      match fs.readDir path with
      | none => none
      | some fileNames => fileNames.foldlM (insertChild fs cfg path) found
    else
      if (lookupName found (Base path)).isSome then some found
      else if filter cfg (Base path) mode none then
        some (found ++ [(Base path, path)])
      else some found

/-- The accumulation phase of `Readdirnames` over all configured paths. -/
def gatherNames (fs : FS) (cfg : Config) (paths : List String) :
    Option FoundNames :=
  paths.foldlM (processPath fs cfg) []

/-- The sorting phase: `sort.Sort(pathsByBasename(names))`, reversed via
`sort.Reverse` when `cfg.Reverse` is set.  An unstable sort over pairwise
distinct base names produces exactly this list. -/
def sortNames (reverse : Bool) (names : List String) : List String :=
  if reverse then names.mergeSort (fun a b => !(baseLess a b))
  else names.mergeSort (fun a b => !(baseLess b a))

/-- Outcome of a Go call: a value, a returned non-nil error, or a runtime
panic. -/
inductive GoResult (α : Type) where
  | ok : α → GoResult α
  | goError : GoResult α
  | panic : GoResult α
  deriving DecidableEq, Repr

/-- The Go slice expression `names[0:n]` for an arbitrary `int` index. -/
def sliceTo (names : List String) (n : Int) : GoResult (List String) :=
  if 0 ≤ n ∧ n ≤ names.length then .ok (names.take n.toNat) else .panic

/-- The final `switch` of `Readdirnames` applying the limit `n`. -/
def limitNames (names : List String) (n : Int) : GoResult (List String) :=
  if n == 0 then .ok names
  else if n < names.length then sliceTo names n
  else .ok names

/-- parts.go `Parts.Readdirnames`. -/
def Readdirnames (fs : FS) (cfg : Config) (paths : List String) (n : Int) :
    GoResult (List String) :=
  match gatherNames fs cfg paths with
  | none => .goError
  | some found =>
    limitNames (sortNames cfg.Reverse (found.map Prod.snd)) n

/-! ### Read, Close (parts.go) -/

/-- parts.go `readState`: the `Close()` success flag of each file in
`Files`, and the `io.MultiReader` composed over them.  `reader = none` is
the Go nil `Reader` interface left behind when initialization stops between
the allocation of `readState` and the `io.MultiReader` call; `some rs` holds
the remaining unread byte queues, front first. -/
structure ReadState where
  files : List Bool
  reader : Option (List (List Nat))
  deriving DecidableEq, Repr

/-- parts.go `Parts`: the configured paths, the configuration, and the
optional read state. -/
structure PartsState where
  paths : List String
  cfg : Config
  readState : Option ReadState

/-- The open loop of `Read`'s initialization: open each resolved file in
order, appending to `readState.Files`; the Boolean reports whether every
open succeeded (on the first failure Go returns with the files opened so
far already stored). -/
def openAll (fs : FS) : List String → List (Bool × List Nat) × Bool
  | [] => ([], true)
  | nm :: rest =>
    match fs.openFile nm with
    | none => ([], false)
    | some f =>
      let (fl, ok) := openAll fs rest
      (f :: fl, ok)

/-- `io.MultiReader.Read` with a buffer of size `k` over the remaining
queues: an empty front queue returns `(0, io.EOF)` from its `os.File`, is
discarded, and the loop continues; a non-empty front queue yields up to `k`
bytes with a nil error; an empty queue list returns `(0, io.EOF)`.  The
Boolean of the result is the `io.EOF` flag. -/
def multiRead (k : Nat) : List (List Nat) → (List Nat × Bool) × List (List Nat)
  | [] => (([], true), [])
  | c :: rest =>
    if c = [] then multiRead k rest
    else ((c.take k, false), c.drop k :: rest)

/-- The result of one `Parts.Read` call: `bytes data` is `(len(data), nil)`,
`eofR` is `(0, io.EOF)`, `errR` a non-nil non-EOF error, `panicR` a runtime
panic. -/
inductive ReadResult where
  | bytes : List Nat → ReadResult
  | eofR : ReadResult
  | errR : ReadResult
  | panicR : ReadResult
  deriving DecidableEq, Repr

/-- parts.go `Parts.Read` with a buffer of size `k`, returning the outcome
and the updated session.  On first call it resolves with `n = 0` and opens
every resolved file; `p.readState` is allocated before the open loop, so an
open failure leaves `readState` set with the files opened so far and a nil
`Reader`; a later call on such a state dereferences the nil `Reader`. -/
def PRead (fs : FS) (st : PartsState) (k : Nat) : ReadResult × PartsState :=
  match st.readState with
  | none =>
    match Readdirnames fs st.cfg st.paths 0 with
    | .goError => (.errR, st)
    | .panic => (.panicR, st)
    | .ok foundFiles =>
      let (opened, ok) := openAll fs foundFiles
      if ok then
        let ((data, isEof), readers) := multiRead k (opened.map Prod.snd)
        ((if isEof then .eofR else .bytes data),
          { st with readState := some ⟨opened.map Prod.fst, some readers⟩ })
      else
        (.errR,
          { st with readState := some ⟨opened.map Prod.fst, none⟩ })
  | some rs =>
    match rs.reader with
    | none => (.panicR, st)
    | some readers =>
      let ((data, isEof), readers') := multiRead k readers
      ((if isEof then .eofR else .bytes data),
        { st with readState := some ⟨rs.files, some readers'⟩ })

/-- parts.go `Parts.Close`, returning whether the returned error is non-nil
and the updated session.  The loop computes
`if tmpErr != nil && err != nil { err = tmpErr }` over the stored files,
starting from `err = nil`. -/
def Close (st : PartsState) : Bool × PartsState :=
  match st.readState with
  | none => (false, st)
  | some rs =>
    let err := rs.files.foldl
      (fun err ok =>
        let tmpErr := !ok
        if tmpErr && err then tmpErr else err)
      false
    (err, { st with readState := none })

/-- Read the stream to completion: repeat `PRead` until `(0, io.EOF)`,
concatenating the returned byte chunks.  `none` on exhausted fuel or on any
error or panic outcome, so a `some` result certifies that the run ended in
the normal end-of-stream condition and never in an I/O error. -/
def readAllAux (fs : FS) (st : PartsState) (k : Nat) : Nat → Option (List Nat)
  | 0 => none
  | fuel + 1 =>
    match PRead fs st k with
    | (.eofR, _) => some []
    | (.bytes data, st') => (readAllAux fs st' k fuel).map (data ++ ·)
    | (.errR, _) => none
    | (.panicR, _) => none

/-- The contents of the file at `nm`, as used once every open has
succeeded. -/
def fileContents (fs : FS) (nm : String) : List Nat :=
  ((fs.openFile nm).map Prod.snd).getD []

/-- Well-formedness of the directory listings reachable from `paths`: a
real `Readdirnames` never returns an empty child name or one containing a
path separator. -/
def childrenOkB : Option (List String) → Bool
  | none => true
  | some l => l.all (fun c => !c.data.isEmpty && c.data.all (fun ch => ch != '/'))

abbrev WFListing (fs : FS) (paths : List String) : Prop :=
  ∀ p ∈ paths, childrenOkB (fs.readDir p) = true

end Parts

unseal List.merge List.mergeSort

namespace Parts

/-! ### Lexicographic comparison: basic theory -/

theorem strLt_irrefl (l : List Char) : strLt l l = false := by
  induction l with
  | nil => rfl
  | cons a as ih => simp [strLt, ih]

theorem strLt_asymm {a b : List Char} (h : strLt a b = true) :
    strLt b a = false := by
  induction a generalizing b with
  | nil =>
    cases b with
    | nil => simp [strLt] at h
    | cons y ys => simp [strLt]
  | cons x xs ih =>
    cases b with
    | nil => simp [strLt] at h
    | cons y ys =>
      simp only [strLt] at h ⊢
      by_cases hxy : x.toNat < y.toNat
      · simp [hxy, Nat.not_lt.mpr (Nat.le_of_lt hxy), Nat.lt_irrefl]
      · by_cases hyx : y.toNat < x.toNat
        · simp [hxy, hyx] at h
        · simp [hxy, hyx] at h ⊢
          exact ih h

theorem strLt_trans {a b c : List Char} (hab : strLt a b = true)
    (hbc : strLt b c = true) : strLt a c = true := by
  induction a generalizing b c with
  | nil =>
    cases c with
    | nil =>
      cases b with
      | nil => simp [strLt] at hab
      | cons y ys => simp [strLt] at hbc
    | cons z zs => simp [strLt]
  | cons x xs ih =>
    cases b with
    | nil => simp [strLt] at hab
    | cons y ys =>
      cases c with
      | nil => simp [strLt] at hbc
      | cons z zs =>
        simp only [strLt] at hab hbc ⊢
        by_cases hxy : x.toNat < y.toNat
        · by_cases hyz : y.toNat < z.toNat
          · simp [show x.toNat < z.toNat by omega]
          · by_cases hzy : z.toNat < y.toNat
            · simp [hyz, hzy] at hbc
            · have : y.toNat = z.toNat := by omega
              simp [show x.toNat < z.toNat by omega]
        · by_cases hyx : y.toNat < x.toNat
          · simp [hxy, hyx] at hab
          · have hxyeq : x.toNat = y.toNat := by omega
            by_cases hyz : y.toNat < z.toNat
            · simp [show x.toNat < z.toNat by omega]
            · by_cases hzy : z.toNat < y.toNat
              · simp [hyz, hzy] at hbc
              · simp [hxy, hyx] at hab
                simp [hyz, hzy] at hbc
                simp [show ¬x.toNat < z.toNat by omega,
                  show ¬z.toNat < x.toNat by omega]
                exact ih hab hbc

theorem strLt_conn {a b : List Char} (hab : strLt a b = false)
    (hba : strLt b a = false) : a = b := by
  induction a generalizing b with
  | nil =>
    cases b with
    | nil => rfl
    | cons y ys => simp [strLt] at hab
  | cons x xs ih =>
    cases b with
    | nil => simp [strLt] at hba
    | cons y ys =>
      simp only [strLt] at hab hba
      by_cases hxy : x.toNat < y.toNat
      · simp [hxy] at hab
      · by_cases hyx : y.toNat < x.toNat
        · simp [hxy, hyx] at hab
          simp [hyx] at hba
        · have hc : x = y :=
            Char.ext (UInt32.ext (show x.toNat = y.toNat by omega))
          simp [hxy, hyx] at hab hba
          exact hc ▸ congrArg (x :: ·) (ih hab hba)

theorem notLt_trans {a b c : List Char} (hab : strLt b a = false)
    (hbc : strLt c b = false) : strLt c a = false := by
  by_contra h
  have hca : strLt c a = true := by
    cases hx : strLt c a
    · exact absurd hx h
    · rfl
  by_cases hab2 : strLt a b = true
  · have := strLt_trans hca hab2
    rw [this] at hbc
    cases hbc
  · have hba : a = b := strLt_conn (by
      cases hx : strLt a b
      · rfl
      · exact absurd hx hab2) hab
    rw [hba] at hca
    rw [hca] at hbc
    cases hbc

theorem notLt_total (a b : List Char) : strLt a b = false ∨ strLt b a = false := by
  cases hx : strLt a b
  · exact Or.inl rfl
  · exact Or.inr (strLt_asymm hx)

theorem stringExt {a b : String} (h : a.data = b.data) : a = b := by
  cases a
  cases b
  simp_all

/-! ### `filepath.Base` of a joined path -/

theorem pjoin_data (p k : String) :
    (pjoin p k).data = p.data ++ '/' :: k.data := by
  simp [pjoin, String.data_append]

theorem Base_pjoin {k : String} (p : String) (hne : k.data ≠ [])
    (hns : '/' ∉ k.data) : Base (pjoin p k) = k := by
  have hdata := pjoin_data p k
  have hnonempty : (pjoin p k).data ≠ [] := by
    rw [hdata]
    simp
  obtain ⟨c, cs, hrev⟩ : ∃ c cs, k.data.reverse = c :: cs := by
    cases hx : k.data.reverse with
    | nil => exact absurd (by simpa using congrArg List.reverse hx) hne
    | cons c cs => exact ⟨c, cs, rfl⟩
  have hcmem : c ∈ k.data := by
    rw [← List.mem_reverse, hrev]
    exact List.mem_cons_self c cs
  have hcne : (c == '/') = false := by
    simp only [beq_eq_false_iff_ne, ne_eq]
    intro hc
    exact hns (hc ▸ hcmem)
  have hrevfull : (pjoin p k).data.reverse =
      k.data.reverse ++ '/' :: p.data.reverse := by
    rw [hdata]
    simp
  have hstrip : stripTrail (pjoin p k).data = (pjoin p k).data := by
    unfold stripTrail
    rw [hrevfull, hrev, List.cons_append]
    have hdrop : List.dropWhile (fun c => c == '/')
        (c :: (cs ++ '/' :: p.data.reverse)) =
        c :: (cs ++ '/' :: p.data.reverse) := by
      simp [List.dropWhile_cons, hcne]
    rw [hdrop,
      show c :: (cs ++ '/' :: p.data.reverse) = (pjoin p k).data.reverse by
        rw [hrevfull, hrev, List.cons_append]]
    exact List.reverse_reverse _
  have hlast : lastComp (pjoin p k).data = k.data := by
    unfold lastComp
    rw [hrevfull]
    have hall : k.data.reverse.takeWhile (fun c => c != '/') = k.data.reverse := by
      apply List.takeWhile_eq_self_iff.mpr
      intro x hx
      simp only [bne_iff_ne, ne_eq]
      intro hxeq
      exact hns (hxeq ▸ List.mem_reverse.mp hx)
    rw [List.takeWhile_append, hall]
    simp
  unfold Base
  rw [if_neg hnonempty, hstrip, hlast, if_neg hne]

theorem pjoin_left_inj {p q k : String} (h : pjoin p k = pjoin q k) : p = q := by
  have hd : p.data ++ '/' :: k.data = q.data ++ '/' :: k.data := by
    have := congrArg String.data h
    rwa [pjoin_data, pjoin_data] at this
  exact stringExt (List.append_cancel_right hd)

/-! ### The `foundNames` association list -/

theorem lookupName_append_some {found : FoundNames} {k : String} {v : String}
    (tail : FoundNames) (h : lookupName found k = some v) :
    lookupName (found ++ tail) k = some v := by
  unfold lookupName at h ⊢
  cases hx : found.find? (fun e => e.1 == k) with
  | none => rw [hx] at h; cases h
  | some e =>
    rw [hx] at h
    rw [List.find?_append, hx]
    simpa using h

theorem lookupName_isSome_append {found : FoundNames} {k : String}
    (tail : FoundNames) (h : (lookupName found k).isSome) :
    (lookupName (found ++ tail) k).isSome := by
  cases hx : lookupName found k with
  | none => rw [hx] at h; cases h
  | some v => rw [lookupName_append_some tail hx]; rfl

theorem lookupName_append_single_ne {found : FoundNames} {k j v : String}
    (h : lookupName found k = none) (hne : j ≠ k) :
    lookupName (found ++ [(j, v)]) k = none := by
  unfold lookupName at h ⊢
  cases hx : found.find? (fun e => e.1 == k) with
  | none =>
    have hbeq : (j == k) = false := beq_eq_false_iff_ne.mpr hne
    rw [List.find?_append, hx]
    simp [List.find?, hbeq]
  | some e => rw [hx] at h; cases h

theorem lookupName_append_single_self {found : FoundNames} {k v : String}
    (h : lookupName found k = none) :
    lookupName (found ++ [(k, v)]) k = some v := by
  unfold lookupName at h ⊢
  cases hx : found.find? (fun e => e.1 == k) with
  | none =>
    rw [List.find?_append, hx]
    simp [List.find?]
  | some e => rw [hx] at h; cases h

theorem lookupName_none_iff {found : FoundNames} {k : String} :
    lookupName found k = none ↔ k ∉ found.map Prod.fst := by
  unfold lookupName
  cases hx : found.find? (fun e => e.1 == k) with
  | none =>
    simp only [List.find?_eq_none] at hx
    constructor
    · intro _ hmem
      obtain ⟨e, he, hfst⟩ := List.mem_map.mp hmem
      have := hx e he
      simp [hfst] at this
    · intro _
      rfl
  | some e =>
    have hmem := List.mem_of_find?_eq_some hx
    have hpred : e.1 = k := by simpa using List.find?_some hx
    constructor
    · intro h
      cases h
    · intro hnot
      exact absurd (List.mem_map.mpr ⟨e, hmem, hpred⟩) hnot

theorem mem_of_lookupName {found : FoundNames} {k v : String}
    (h : lookupName found k = some v) : (k, v) ∈ found := by
  unfold lookupName at h
  cases hx : found.find? (fun e => e.1 == k) with
  | none => rw [hx] at h; cases h
  | some e =>
    rw [hx] at h
    have hmem := List.mem_of_find?_eq_some hx
    have hpred : e.1 = k := by simpa using List.find?_some hx
    have hv : e.2 = v := by
      cases h
      rfl
    have he : e = (k, v) := by
      cases e
      simp_all
    exact he ▸ hmem

/-! ### Generic induction over `Option`-valued `foldlM` -/

theorem foldlM_option_inv {α σ : Type} {f : σ → α → Option σ} {P : σ → Prop} :
    ∀ {l : List α} {s s' : σ}, l.foldlM f s = some s' →
      (∀ t x t', x ∈ l → P t → f t x = some t' → P t') → P s → P s' := by
  intro l
  induction l with
  | nil =>
    intro s s' h _ hP
    simp only [List.foldlM_nil] at h
    cases h
    exact hP
  | cons a l ih =>
    intro s s' h hstep hP
    rw [List.foldlM_cons] at h
    cases hfa : f s a with
    | none =>
      rw [hfa] at h
      cases h
    | some t =>
      rw [hfa] at h
      simp only [Option.bind_eq_bind, Option.some_bind] at h
      exact ih h (fun t x t' hx => hstep t x t' (List.mem_cons_of_mem a hx))
        (hstep s a t (List.mem_cons_self a l) hP hfa)

/-! ### Shapes of the loop bodies -/

theorem insertChild_shape {fs : FS} {cfg : Config} {p c : String}
    {found found' : FoundNames}
    (h : insertChild fs cfg p found c = some found') :
    found' = found ∨
      (lookupName found c = none ∧ found' = found ++ [(c, pjoin p c)]) := by
  unfold insertChild at h
  cases hstat : StatMode fs (pjoin p c) with
  | none => rw [hstat] at h; cases h
  | some m =>
    rw [hstat] at h
    simp only [] at h
    by_cases hdup : (lookupName found c).isSome
    · rw [if_pos hdup] at h
      cases h
      exact Or.inl rfl
    · rw [if_neg hdup] at h
      by_cases hfil : filter cfg c m (some cfg.RegExpFilter) = true
      · rw [if_pos hfil] at h
        cases h
        exact Or.inr ⟨Option.not_isSome_iff_eq_none.mp hdup, rfl⟩
      · rw [if_neg hfil] at h
        cases h
        exact Or.inl rfl

theorem processPath_shape {fs : FS} {cfg : Config} {p : String}
    {found found' : FoundNames}
    (h : processPath fs cfg found p = some found') :
    (∃ l, fs.readDir p = some l ∧
      l.foldlM (insertChild fs cfg p) found = some found') ∨
    found' = found ∨
      (lookupName found (Base p) = none ∧ found' = found ++ [(Base p, p)]) := by
  unfold processPath at h
  cases hstat : StatMode fs p with
  | none => rw [hstat] at h; cases h
  | some m =>
    rw [hstat] at h
    simp only [] at h
    by_cases hdir : IsDir m = true
    · rw [if_pos hdir] at h
      cases hrd : fs.readDir p with
      | none => rw [hrd] at h; cases h
      | some l =>
        rw [hrd] at h
        simp only [] at h
        exact Or.inl ⟨l, rfl, h⟩
    · rw [if_neg hdir] at h
      by_cases hdup : (lookupName found (Base p)).isSome
      · rw [if_pos hdup] at h
        cases h
        exact Or.inr (Or.inl rfl)
      · rw [if_neg hdup] at h
        by_cases hfil : filter cfg (Base p) m none = true
        · rw [if_pos hfil] at h
          cases h
          exact Or.inr (Or.inr ⟨Option.not_isSome_iff_eq_none.mp hdup, rfl⟩)
        · rw [if_neg hfil] at h
          cases h
          exact Or.inr (Or.inl rfl)

/-! ### Persistence: a recorded resolution is never overwritten -/

theorem insertChild_preserve {fs : FS} {cfg : Config} {p c k v : String}
    {found found' : FoundNames}
    (hv : lookupName found k = some v)
    (h : insertChild fs cfg p found c = some found') :
    lookupName found' k = some v := by
  rcases insertChild_shape h with heq | ⟨_, heq⟩
  · exact heq ▸ hv
  · exact heq ▸ lookupName_append_some _ hv

theorem processPath_preserve {fs : FS} {cfg : Config} {p k v : String}
    {found found' : FoundNames}
    (hv : lookupName found k = some v)
    (h : processPath fs cfg found p = some found') :
    lookupName found' k = some v := by
  rcases processPath_shape h with ⟨l, _, hfold⟩ | heq | ⟨_, heq⟩
  · exact foldlM_option_inv (P := fun t => lookupName t k = some v) hfold
      (fun t x t' _ hP hstep => insertChild_preserve hP hstep) hv
  · exact heq ▸ hv
  · exact heq ▸ lookupName_append_some _ hv

/-! ### Invariants of the accumulated map: distinct keys, base-name keys -/

def KeysNodup (found : FoundNames) : Prop := (found.map Prod.fst).Nodup

def BaseMatches (found : FoundNames) : Prop := ∀ e ∈ found, Base e.2 = e.1

theorem keysNodup_append {found : FoundNames} {k v : String}
    (hk : KeysNodup found) (habs : lookupName found k = none) :
    KeysNodup (found ++ [(k, v)]) := by
  unfold KeysNodup at hk ⊢
  rw [List.map_append]
  simp only [List.map_cons, List.map_nil]
  rw [List.nodup_append]
  refine ⟨hk, List.nodup_singleton k, ?_⟩
  intro x hx hx1
  simp only [List.mem_singleton] at hx1
  exact absurd hx (hx1 ▸ lookupName_none_iff.mp habs)

theorem insertChild_keys {fs : FS} {cfg : Config} {p c : String}
    {found found' : FoundNames}
    (hk : KeysNodup found)
    (h : insertChild fs cfg p found c = some found') : KeysNodup found' := by
  rcases insertChild_shape h with heq | ⟨habs, heq⟩
  · exact heq ▸ hk
  · exact heq ▸ keysNodup_append hk habs

theorem insertChild_base {fs : FS} {cfg : Config} {p c : String}
    {found found' : FoundNames}
    (hc : c.data ≠ [] ∧ '/' ∉ c.data)
    (hb : BaseMatches found)
    (h : insertChild fs cfg p found c = some found') : BaseMatches found' := by
  rcases insertChild_shape h with heq | ⟨_, heq⟩
  · exact heq ▸ hb
  · subst heq
    intro e he
    rcases List.mem_append.mp he with he1 | he2
    · exact hb e he1
    · simp only [List.mem_singleton] at he2
      subst he2
      exact Base_pjoin p hc.1 hc.2

theorem childrenOk_spec {fs : FS} {p : String} {l : List String}
    (h : childrenOkB (fs.readDir p) = true)
    (hl : fs.readDir p = some l) : ∀ c ∈ l, c.data ≠ [] ∧ '/' ∉ c.data := by
  rw [hl] at h
  simp only [childrenOkB, List.all_eq_true, Bool.and_eq_true,
    Bool.not_eq_true'] at h
  intro c hc
  obtain ⟨h1, h2⟩ := h c hc
  constructor
  · simpa [List.isEmpty_iff] using h1
  · intro hmem
    have := h2 '/' hmem
    simp at this

theorem processPath_inv {fs : FS} {cfg : Config} {p : String}
    {found found' : FoundNames}
    (hwf : childrenOkB (fs.readDir p) = true)
    (hk : KeysNodup found) (hb : BaseMatches found)
    (h : processPath fs cfg found p = some found') :
    KeysNodup found' ∧ BaseMatches found' := by
  rcases processPath_shape h with ⟨l, hrd, hfold⟩ | heq | ⟨habs, heq⟩
  · have hok := childrenOk_spec hwf hrd
    exact foldlM_option_inv (P := fun t => KeysNodup t ∧ BaseMatches t) hfold
      (fun t x t' hx hP hstep =>
        ⟨insertChild_keys hP.1 hstep, insertChild_base (hok x hx) hP.2 hstep⟩)
      ⟨hk, hb⟩
  · exact heq ▸ ⟨hk, hb⟩
  · subst heq
    constructor
    · exact keysNodup_append hk habs
    · intro e he
      rcases List.mem_append.mp he with he1 | he2
      · exact hb e he1
      · simp only [List.mem_singleton] at he2
        subst he2
        rfl

theorem gatherNames_inv {fs : FS} {cfg : Config} {paths : List String}
    {found : FoundNames}
    (hwf : WFListing fs paths)
    (hg : gatherNames fs cfg paths = some found) :
    KeysNodup found ∧ BaseMatches found := by
  unfold gatherNames at hg
  exact foldlM_option_inv (P := fun t => KeysNodup t ∧ BaseMatches t) hg
    (fun t x t' hx hP hstep =>
      processPath_inv (hwf x hx) hP.1 hP.2 hstep)
    ⟨by simp [KeysNodup], by intro e he; cases he⟩

/-! ### Sorting lemmas -/

theorem baseLess_conn {a b : String} (hab : baseLess a b = false)
    (hba : baseLess b a = false) : Base a = Base b :=
  stringExt (strLt_conn hab hba)

theorem sortNames_perm (r : Bool) (names : List String) :
    (sortNames r names).Perm names := by
  unfold sortNames
  by_cases hr : r = true
  · rw [if_pos hr]
    exact List.mergeSort_perm names _
  · rw [if_neg hr]
    exact List.mergeSort_perm names _

theorem sortNames_sorted_asc (names : List String) :
    (sortNames false names).Pairwise (fun a b => baseLess b a = false) := by
  have h := @List.sorted_mergeSort String (fun a b => !(baseLess b a))
    (fun a b c h1 h2 => by
      rw [Bool.not_eq_true'] at h1 h2 ⊢
      exact notLt_trans h1 h2)
    (fun a b => by
      rcases notLt_total (Base b).data (Base a).data with hx | hx
      · simp [baseLess, hx]
      · simp [baseLess, hx])
    names
  have h2 : (sortNames false names).Pairwise
      (fun a b => (!(baseLess b a)) = true) := by
    unfold sortNames
    simpa using h
  exact h2.imp (fun hx => by simpa using hx)

theorem sortNames_sorted_desc (names : List String) :
    (sortNames true names).Pairwise (fun a b => baseLess a b = false) := by
  have h := @List.sorted_mergeSort String (fun a b => !(baseLess a b))
    (fun a b c h1 h2 => by
      rw [Bool.not_eq_true'] at h1 h2 ⊢
      exact notLt_trans h2 h1)
    (fun a b => by
      rcases notLt_total (Base a).data (Base b).data with hx | hx
      · simp [baseLess, hx]
      · simp [baseLess, hx])
    names
  have h2 : (sortNames true names).Pairwise
      (fun a b => (!(baseLess a b)) = true) := by
    unfold sortNames
    simpa using h
  exact h2.imp (fun hx => by simpa using hx)

theorem pairwise_strict_of_sorted {l : List String}
    (hs : l.Pairwise (fun a b => baseLess b a = false))
    (hnd : (l.map Base).Nodup) :
    l.Pairwise (fun a b => baseLess a b = true) := by
  have hne : l.Pairwise (fun a b => Base a ≠ Base b) :=
    List.pairwise_map.mp hnd
  refine (hs.and hne).imp ?_
  rintro a b ⟨h1, h2⟩
  cases hx : baseLess a b
  · exact absurd (baseLess_conn hx h1) h2
  · rfl

theorem nodup_base_of_perm {l l' : List String}
    (hp : l.Perm l') (hnd : (l.map Base).Nodup) : (l'.map Base).Nodup :=
  ((hp.map Base).nodup_iff).mp hnd

theorem sortNames_reverse {names : List String}
    (hnd : (names.map Base).Nodup) :
    sortNames true names = (sortNames false names).reverse := by
  have hndA : ((sortNames false names).map Base).Nodup :=
    nodup_base_of_perm (sortNames_perm false names).symm hnd
  have hndB : ((sortNames true names).map Base).Nodup :=
    nodup_base_of_perm (sortNames_perm true names).symm hnd
  have hA : (sortNames false names).Pairwise (fun a b => baseLess a b = true) :=
    pairwise_strict_of_sorted (sortNames_sorted_asc names) hndA
  have hBdesc : (sortNames true names).Pairwise
      (fun a b => baseLess b a = true) := by
    have hne : (sortNames true names).Pairwise (fun a b => Base a ≠ Base b) :=
      List.pairwise_map.mp hndB
    refine ((sortNames_sorted_desc names).and hne).imp ?_
    rintro a b ⟨h1, h2⟩
    cases hx : baseLess b a
    · exact absurd (baseLess_conn h1 hx) h2
    · rfl
  have hB : (sortNames true names).reverse.Pairwise
      (fun a b => baseLess a b = true) :=
    List.pairwise_reverse.mpr hBdesc
  have hperm : (sortNames true names).reverse.Perm (sortNames false names) :=
    (((sortNames true names).reverse_perm).trans
      (sortNames_perm true names)).trans (sortNames_perm false names).symm
  haveI : IsAntisymm String (fun a b => baseLess a b = true) := by
    constructor
    intro a b h1 h2
    have := strLt_asymm (a := (Base a).data) (b := (Base b).data) h1
    unfold baseLess at h2
    rw [h2] at this
    cases this
  have := List.eq_of_perm_of_sorted (r := fun a b => baseLess a b = true)
    hperm hB hA
  rw [← this, List.reverse_reverse]

/-! ### The precedence chain (claim C1) -/

theorem processPath_dir {fs : FS} {cfg : Config} {p : String} {m : Nat}
    {l : List String} {found found' : FoundNames}
    (hstat : StatMode fs p = some m) (hdir : IsDir m = true)
    (hrd : fs.readDir p = some l)
    (h : processPath fs cfg found p = some found') :
    l.foldlM (insertChild fs cfg p) found = some found' := by
  unfold processPath at h
  rw [hstat] at h
  simp only [] at h
  rw [if_pos hdir, hrd] at h
  simpa using h

theorem gatherNames_pair {fs : FS} {cfg : Config} {A B : String}
    {found : FoundNames}
    (hg : gatherNames fs cfg [A, B] = some found) :
    ∃ f1, processPath fs cfg [] A = some f1 ∧
      processPath fs cfg f1 B = some found := by
  unfold gatherNames at hg
  simp only [List.foldlM_cons, List.foldlM_nil, Option.bind_eq_bind] at hg
  cases h1 : processPath fs cfg [] A with
  | none => rw [h1] at hg; cases hg
  | some f1 =>
    rw [h1] at hg
    simp only [Option.some_bind] at hg
    cases h2 : processPath fs cfg f1 B with
    | none => rw [h2] at hg; cases hg
    | some f2 =>
      rw [h2] at hg
      simp only [Option.some_bind, Option.pure_def] at hg
      cases hg
      exact ⟨f1, rfl, h2⟩

theorem foldChildren_binds {fs : FS} {cfg : Config} {A nm : String} {m : Nat} :
    ∀ {children : List String} {found found' : FoundNames},
      children.foldlM (insertChild fs cfg A) found = some found' →
      nm ∈ children →
      StatMode fs (pjoin A nm) = some m →
      filter cfg nm m (some cfg.RegExpFilter) = true →
      lookupName found nm = none →
      lookupName found' nm = some (pjoin A nm) := by
  intro children
  induction children with
  | nil =>
    intro found found' h hmem
    cases hmem
  | cons c cs ih =>
    intro found found' h hmem hstat hfil habs
    rw [List.foldlM_cons] at h
    cases hfc : insertChild fs cfg A found c with
    | none => rw [hfc] at h; cases h
    | some t =>
      rw [hfc] at h
      simp only [Option.bind_eq_bind, Option.some_bind] at h
      by_cases hc : c = nm
      · subst hc
        have ht : t = found ++ [(c, pjoin A c)] := by
          unfold insertChild at hfc
          rw [hstat] at hfc
          simp only [] at hfc
          rw [if_neg (by rw [habs]; simp)] at hfc
          rw [if_pos hfil] at hfc
          cases hfc
          rfl
        have hbind : lookupName t c = some (pjoin A c) :=
          ht ▸ lookupName_append_single_self habs
        exact foldlM_option_inv
          (P := fun s => lookupName s c = some (pjoin A c)) h
          (fun t' x t'' _ hP hstep => insertChild_preserve hP hstep) hbind
      · have hmem' : nm ∈ cs := by
          rcases List.mem_cons.mp hmem with h1 | h1
          · exact absurd h1.symm hc
          · exact h1
        have habs' : lookupName t nm = none := by
          rcases insertChild_shape hfc with heq | ⟨_, heq⟩
          · exact heq ▸ habs
          · exact heq ▸ lookupName_append_single_ne habs hc
        exact ih h hmem' hstat hfil habs'

theorem lookup_unique {found : FoundNames} {k v : String}
    (hk : KeysNodup found) (hv : lookupName found k = some v) :
    ∀ v', (k, v') ∈ found → v' = v := by
  intro v' hmem'
  have hmem := mem_of_lookupName hv
  have := List.inj_on_of_nodup_map hk (x := (k, v')) hmem' (y := (k, v)) hmem rfl
  exact congrArg Prod.snd this

/-! ### Streaming lemmas (claim C2) -/

theorem multiRead_eof {k : Nat} :
    ∀ {readers : List (List Nat)} {d : List Nat} {rs' : List (List Nat)},
      multiRead k readers = ((d, true), rs') → readers.flatten = [] := by
  intro readers
  induction readers with
  | nil =>
    intro d rs' h
    rfl
  | cons c rest ih =>
    intro d rs' h
    unfold multiRead at h
    by_cases hc : c = []
    · rw [if_pos hc] at h
      subst hc
      simpa using ih h
    · rw [if_neg hc] at h
      simp at h

theorem multiRead_decomp {k : Nat} :
    ∀ {readers : List (List Nat)} {d : List Nat} {rs' : List (List Nat)},
      multiRead k readers = ((d, false), rs') →
      d ++ rs'.flatten = readers.flatten ∧
      (0 < k → (rs'.map List.length).sum + rs'.length <
        (readers.map List.length).sum + readers.length) := by
  intro readers
  induction readers with
  | nil =>
    intro d rs' h
    unfold multiRead at h
    simp at h
  | cons c rest ih =>
    intro d rs' h
    unfold multiRead at h
    by_cases hc : c = []
    · rw [if_pos hc] at h
      obtain ⟨hd, hlt⟩ := ih h
      subst hc
      refine ⟨by simpa using hd, ?_⟩
      intro hk
      have := hlt hk
      simp only [List.map_cons, List.sum_cons, List.length_cons,
        List.length_nil]
      omega
    · rw [if_neg hc] at h
      simp only [Prod.mk.injEq] at h
      obtain ⟨⟨hd, _⟩, hrs⟩ := h
      subst hd
      subst hrs
      constructor
      · simp only [List.flatten_cons]
        rw [← List.append_assoc, List.take_append_drop]
      · intro hk
        have hcl : c.length ≠ 0 := by
          intro h0
          exact hc (List.length_eq_zero.mp h0)
        simp only [List.map_cons, List.sum_cons, List.length_cons,
          List.length_drop]
        omega

theorem readAllAux_succ (fs : FS) (st : PartsState) (k fuel : Nat) :
    readAllAux fs st k (fuel + 1) =
      match PRead fs st k with
      | (.eofR, _) => some []
      | (.bytes data, st') => (readAllAux fs st' k fuel).map (data ++ ·)
      | (.errR, _) => none
      | (.panicR, _) => none := rfl

theorem readAllAux_eof {fs : FS} {st st' : PartsState} {k fuel : Nat}
    (h : PRead fs st k = (.eofR, st')) :
    readAllAux fs st k (fuel + 1) = some [] := by
  rw [readAllAux_succ, h]

theorem readAllAux_bytes {fs : FS} {st st' : PartsState} {k fuel : Nat}
    {data : List Nat} (h : PRead fs st k = (.bytes data, st')) :
    readAllAux fs st k (fuel + 1) =
      (readAllAux fs st' k fuel).map (data ++ ·) := by
  rw [readAllAux_succ, h]

theorem PRead_initialized (fs : FS) (paths : List String) (cfg : Config)
    (fl : List Bool) (readers : List (List Nat)) (k : Nat) :
    PRead fs ⟨paths, cfg, some ⟨fl, some readers⟩⟩ k =
      ((if (multiRead k readers).1.2 then .eofR
        else .bytes (multiRead k readers).1.1),
        ⟨paths, cfg, some ⟨fl, some (multiRead k readers).2⟩⟩) := by
  unfold PRead
  rcases hmr : multiRead k readers with ⟨⟨data, isEof⟩, rs'⟩
  simp [hmr]

theorem readAll_drain (fs : FS) {k : Nat} (hk : 0 < k) :
    ∀ (fuel : Nat) (paths : List String) (cfg : Config) (fl : List Bool)
      (readers : List (List Nat)),
      (readers.map List.length).sum + readers.length + 1 ≤ fuel →
      readAllAux fs ⟨paths, cfg, some ⟨fl, some readers⟩⟩ k fuel =
        some readers.flatten := by
  intro fuel
  induction fuel with
  | zero =>
    intro paths cfg fl readers hle
    omega
  | succ f ih =>
    intro paths cfg fl readers hle
    rcases hmr : multiRead k readers with ⟨⟨data, isEof⟩, rs'⟩
    cases isEof with
    | true =>
      have hpr : PRead fs ⟨paths, cfg, some ⟨fl, some readers⟩⟩ k =
          (.eofR, ⟨paths, cfg, some ⟨fl, some rs'⟩⟩) := by
        rw [PRead_initialized, hmr]
        simp
      rw [readAllAux_eof hpr, multiRead_eof hmr]
    | false =>
      obtain ⟨hd, hlt⟩ := multiRead_decomp hmr
      have hpr : PRead fs ⟨paths, cfg, some ⟨fl, some readers⟩⟩ k =
          (.bytes data, ⟨paths, cfg, some ⟨fl, some rs'⟩⟩) := by
        rw [PRead_initialized, hmr]
        simp
      rw [readAllAux_bytes hpr, ih paths cfg fl rs' (by have := hlt hk; omega)]
      simp [← hd]

theorem openAll_ok {fs : FS} :
    ∀ {names : List String}, (∀ nm ∈ names, (fs.openFile nm).isSome) →
      openAll fs names =
        (names.map (fun nm => (fs.openFile nm).getD (true, [])), true) := by
  intro names
  induction names with
  | nil =>
    intro _
    rfl
  | cons nm rest ih =>
    intro h
    obtain ⟨f, hf⟩ := Option.isSome_iff_exists.mp (h nm (List.mem_cons_self nm rest))
    unfold openAll
    rw [hf, ih (fun x hx => h x (List.mem_cons_of_mem _ hx))]
    simp [hf]

theorem map_snd_open (fs : FS) {ns : List String}
    (hopen : ∀ nm ∈ ns, (fs.openFile nm).isSome) :
    (ns.map (fun nm => (fs.openFile nm).getD (true, []))).map Prod.snd =
      ns.map (fileContents fs) := by
  rw [List.map_map]
  apply List.map_congr_left
  intro nm hmem
  obtain ⟨f, hf⟩ := Option.isSome_iff_exists.mp (hopen nm hmem)
  simp [fileContents, hf]

theorem PRead_uninitialized (fs : FS) (paths : List String) (cfg : Config)
    (k : Nat) (ns : List String)
    (hres : Readdirnames fs cfg paths 0 = .ok ns)
    (hopen : ∀ nm ∈ ns, (fs.openFile nm).isSome) :
    PRead fs ⟨paths, cfg, none⟩ k =
      PRead fs ⟨paths, cfg,
        some ⟨ns.map (fun nm => ((fs.openFile nm).getD (true, [])).1),
          some (ns.map (fileContents fs))⟩⟩ k := by
  rw [PRead_initialized]
  unfold PRead
  simp only [hres]
  rw [openAll_ok hopen]
  simp only [if_pos rfl]
  rw [map_snd_open fs hopen]
  rcases hmr : multiRead k (ns.map (fileContents fs)) with ⟨⟨data, isEof⟩, rs'⟩
  simp [hmr, List.map_map]

/-! ### Unfolding `Readdirnames` -/

theorem limitNames_zero (names : List String) :
    limitNames names 0 = .ok names := by
  simp [limitNames]

theorem limitNames_pos_lt {names : List String} {n : Int} (hn : 0 < n)
    (hlt : n < (names.length : Int)) :
    limitNames names n = .ok (names.take n.toNat) := by
  unfold limitNames sliceTo
  rw [if_neg (by simp; omega), if_pos hlt, if_pos (by omega)]

theorem limitNames_pos_ge {names : List String} {n : Int} (hn : 0 < n)
    (hge : (names.length : Int) ≤ n) :
    limitNames names n = .ok names := by
  unfold limitNames
  rw [if_neg (by simp; omega), if_neg (by omega)]

theorem limitNames_neg {names : List String} {n : Int} (hn : n < 0) :
    limitNames names n = .panic := by
  unfold limitNames sliceTo
  rw [if_neg (by simp; omega), if_pos (by omega), if_neg (by omega)]

theorem Readdirnames_zero {fs : FS} {cfg : Config} {paths ns : List String}
    (h : Readdirnames fs cfg paths 0 = .ok ns) :
    ∃ found, gatherNames fs cfg paths = some found ∧
      ns = sortNames cfg.Reverse (found.map Prod.snd) := by
  unfold Readdirnames at h
  cases hg : gatherNames fs cfg paths with
  | none => rw [hg] at h; cases h
  | some found =>
    rw [hg] at h
    simp only [] at h
    rw [limitNames_zero] at h
    cases h
    exact ⟨found, rfl, rfl⟩

theorem Readdirnames_zero_eq {fs : FS} {cfg : Config} {paths : List String}
    {found : FoundNames} (hg : gatherNames fs cfg paths = some found) :
    Readdirnames fs cfg paths 0 =
      .ok (sortNames cfg.Reverse (found.map Prod.snd)) := by
  unfold Readdirnames
  rw [hg]
  simp only []
  exact limitNames_zero _

theorem Readdirnames_of_gather {fs : FS} {cfg : Config} {paths : List String}
    {found : FoundNames} (hg : gatherNames fs cfg paths = some found)
    (n : Int) :
    Readdirnames fs cfg paths n =
      limitNames (sortNames cfg.Reverse (found.map Prod.snd)) n := by
  unfold Readdirnames
  rw [hg]

/-- The `Reverse` flag plays no part in the accumulation phase. -/
theorem gatherNames_reverse_ignored (fs : FS) (tf pf : Nat)
    (re : String → Bool) (r1 r2 : Bool) (paths : List String) :
    gatherNames fs ⟨r1, tf, pf, re⟩ paths =
      gatherNames fs ⟨r2, tf, pf, re⟩ paths := by
  have hpp : processPath fs ⟨r1, tf, pf, re⟩ = processPath fs ⟨r2, tf, pf, re⟩ := by
    funext found path
    rfl
  unfold gatherNames
  rw [hpp]

/-! ### The filter predicate, characterized (claim C7) -/

theorem append_singleton_ne (l : FoundNames) (x : String × String) :
    l ++ [x] ≠ l := by
  intro h
  have := congrArg List.length h
  simp at this

theorem filter_some_iff (cfg : Config) (name : String) (mode : Nat)
    (re : String → Bool) :
    filter cfg name mode (some re) = true ↔
      (re name = true ∧ mode &&& cfg.ModePermFilter ≠ 0 ∧
        mode &&& cfg.ModeTypeFilter ≠ 0) := by
  unfold filter
  simp only []
  by_cases hre : re name = true
  · rw [if_neg (show ¬(!(re name)) = true by simp [hre])]
    by_cases hp : mode &&& cfg.ModePermFilter = 0
    · rw [if_pos (show (mode &&& cfg.ModePermFilter == 0) = true by simp [hp])]
      simp [hp]
    · rw [if_neg (show ¬(mode &&& cfg.ModePermFilter == 0) = true by simp [hp])]
      by_cases ht : mode &&& cfg.ModeTypeFilter = 0
      · rw [if_pos (show (mode &&& cfg.ModeTypeFilter == 0) = true by simp [ht])]
        simp [ht]
      · rw [if_neg (show ¬(mode &&& cfg.ModeTypeFilter == 0) = true by simp [ht])]
        simp [hre, hp, ht]
  · have hre' : re name = false := by
      cases hx : re name
      · rfl
      · exact absurd hx hre
    rw [if_pos (show (!(re name)) = true by simp [hre'])]
    simp [hre']

theorem filter_none_iff (cfg : Config) (name : String) (mode : Nat) :
    filter cfg name mode none = true ↔
      (mode &&& cfg.ModePermFilter ≠ 0 ∧ mode &&& cfg.ModeTypeFilter ≠ 0) := by
  unfold filter
  simp only []
  rw [if_neg (show ¬false = true by simp)]
  by_cases hp : mode &&& cfg.ModePermFilter = 0
  · rw [if_pos (show (mode &&& cfg.ModePermFilter == 0) = true by simp [hp])]
    simp [hp]
  · rw [if_neg (show ¬(mode &&& cfg.ModePermFilter == 0) = true by simp [hp])]
    by_cases ht : mode &&& cfg.ModeTypeFilter = 0
    · rw [if_pos (show (mode &&& cfg.ModeTypeFilter == 0) = true by simp [ht])]
      simp [ht]
    · rw [if_neg (show ¬(mode &&& cfg.ModeTypeFilter == 0) = true by simp [ht])]
      simp [hp, ht]

theorem insertChild_fresh_iff {fs : FS} {cfg : Config} {p nm : String}
    {found : FoundNames} {m : Nat}
    (hstat : StatMode fs (pjoin p nm) = some m)
    (habs : lookupName found nm = none) :
    (insertChild fs cfg p found nm = some (found ++ [(nm, pjoin p nm)]) ↔
      filter cfg nm m (some cfg.RegExpFilter) = true) ∧
    (insertChild fs cfg p found nm = some found ↔
      ¬filter cfg nm m (some cfg.RegExpFilter) = true) := by
  unfold insertChild
  rw [hstat]
  simp only []
  rw [if_neg (show ¬(lookupName found nm).isSome = true by rw [habs]; simp)]
  by_cases hfil : filter cfg nm m (some cfg.RegExpFilter) = true
  · rw [if_pos hfil]
    constructor
    · exact ⟨fun _ => hfil, fun _ => rfl⟩
    · constructor
      · intro h
        exact absurd (congrArg List.length (Option.some.inj h)) (by simp)
      · intro h
        exact absurd hfil h
  · rw [if_neg hfil]
    constructor
    · constructor
      · intro h
        exact absurd (congrArg List.length (Option.some.inj h)) (by simp)
      · intro h
        exact absurd h hfil
    · exact ⟨fun _ => hfil, fun _ => rfl⟩

theorem processPath_direct_iff {fs : FS} {cfg : Config} {q : String}
    {found : FoundNames} {mq : Nat}
    (hstatq : StatMode fs q = some mq) (hqdir : IsDir mq = false)
    (habs : lookupName found (Base q) = none) :
    processPath fs cfg found q = some (found ++ [(Base q, q)]) ↔
      filter cfg (Base q) mq none = true := by
  unfold processPath
  rw [hstatq]
  simp only []
  rw [if_neg (show ¬IsDir mq = true by simp [hqdir])]
  rw [if_neg (show ¬(lookupName found (Base q)).isSome = true by rw [habs]; simp)]
  by_cases hfil : filter cfg (Base q) mq none = true
  · rw [if_pos hfil]
    exact ⟨fun _ => hfil, fun _ => rfl⟩
  · rw [if_neg hfil]
    constructor
    · intro h
      exact absurd (congrArg List.length (Option.some.inj h)) (by simp)
    · intro h
      exact absurd h hfil

/-! ## The claims -/

/-- C1: for an ordered path list `[A, B]` where a directory entry under `A`
and one under `B` yield the same base name `nm` and both pass the active
filters, `Readdirnames` resolves `nm` to the full path discovered under
`A`, never `B`: the base-name map only inserts a name that is not already
present, and paths are processed in caller-supplied order. -/
theorem c1_earliest_path_wins
    (fs : FS) (cfg : Config) (A B nm : String) (mA mnm : Nat)
    (chA : List String) (found : FoundNames)
    (hwf : WFListing fs [A, B])
    (hstatA : StatMode fs A = some mA) (hdirA : IsDir mA = true)
    (hrdA : fs.readDir A = some chA) (hmem : nm ∈ chA)
    (hstat : StatMode fs (pjoin A nm) = some mnm)
    (hfil : filter cfg nm mnm (some cfg.RegExpFilter) = true)
    (hg : gatherNames fs cfg [A, B] = some found)
    (hAB : A ≠ B) :
    lookupName found nm = some (pjoin A nm) ∧
    (∀ v, (nm, v) ∈ found → v = pjoin A nm) ∧
    ∃ ns, Readdirnames fs cfg [A, B] 0 = .ok ns ∧
      pjoin A nm ∈ ns ∧ pjoin B nm ∉ ns := by
  obtain ⟨f1, hA1, hB1⟩ := gatherNames_pair hg
  have hfold := processPath_dir hstatA hdirA hrdA hA1
  have hf1 : lookupName f1 nm = some (pjoin A nm) :=
    foldChildren_binds hfold hmem hstat hfil rfl
  have hfound : lookupName found nm = some (pjoin A nm) :=
    processPath_preserve hf1 hB1
  obtain ⟨hkeys, hbase⟩ := gatherNames_inv hwf hg
  have huniq := lookup_unique hkeys hfound
  refine ⟨hfound, huniq, ?_⟩
  have hwfnm := childrenOk_spec (hwf A (by simp)) hrdA nm hmem
  refine ⟨sortNames cfg.Reverse (found.map Prod.snd),
    Readdirnames_zero_eq hg, ?_, ?_⟩
  · have hv : pjoin A nm ∈ found.map Prod.snd :=
      List.mem_map.mpr ⟨(nm, pjoin A nm), mem_of_lookupName hfound, rfl⟩
    exact ((sortNames_perm _ _).mem_iff).mpr hv
  · intro hmemB
    have hv : pjoin B nm ∈ found.map Prod.snd :=
      ((sortNames_perm _ _).mem_iff).mp hmemB
    obtain ⟨e, he, hsnd⟩ := List.mem_map.mp hv
    have hb := hbase e he
    rw [hsnd, Base_pjoin B hwfnm.1 hwfnm.2] at hb
    have he2 : (nm, pjoin B nm) ∈ found := by
      have hee : e = (nm, pjoin B nm) := by
        cases e
        simp_all
      exact hee ▸ he
    have heq := huniq _ he2
    exact hAB (pjoin_left_inj heq).symm

/-- C5: a successful resolution is strictly ordered by base name under
ordinary string comparison (ascending when `Reverse` is unset), and
setting `Reverse` yields exactly the reverse list for the same inputs. -/
theorem c5_sorted_by_basename_and_reverse
    (fs : FS) (tf pf : Nat) (re : String → Bool)
    (paths ns : List String)
    (hwf : WFListing fs paths)
    (hres : Readdirnames fs ⟨false, tf, pf, re⟩ paths 0 = .ok ns) :
    ns.Pairwise (fun a b => baseLess a b = true) ∧
    Readdirnames fs ⟨true, tf, pf, re⟩ paths 0 = .ok ns.reverse := by
  obtain ⟨found, hg, hns⟩ := Readdirnames_zero hres
  obtain ⟨hkeys, hbase⟩ := gatherNames_inv hwf hg
  have hns' : ns = sortNames false (found.map Prod.snd) := hns
  have hvals : ((found.map Prod.snd).map Base).Nodup := by
    have hmapeq : (found.map Prod.snd).map Base = found.map Prod.fst := by
      rw [List.map_map]
      exact List.map_congr_left hbase
    rw [hmapeq]
    exact hkeys
  constructor
  · rw [hns']
    exact pairwise_strict_of_sorted (sortNames_sorted_asc _)
      (nodup_base_of_perm (sortNames_perm false _).symm hvals)
  · have hg' : gatherNames fs ⟨true, tf, pf, re⟩ paths = some found := by
      rw [gatherNames_reverse_ignored fs tf pf re true false]
      exact hg
    rw [Readdirnames_zero_eq hg']
    have : sortNames true (found.map Prod.snd) =
        (sortNames false (found.map Prod.snd)).reverse :=
      sortNames_reverse hvals
    rw [show (⟨true, tf, pf, re⟩ : Config).Reverse = true from rfl, this, hns']

/-- C6: on a successful resolution, limit `0` returns the full sorted
list, a positive limit below the length returns exactly its first `n`
elements, and a limit at least the length returns the full list. -/
theorem c6_limit_semantics
    (fs : FS) (cfg : Config) (paths ns : List String) (n : Int)
    (hres : Readdirnames fs cfg paths 0 = .ok ns) (hn : 0 < n) :
    (n < (ns.length : Int) →
      Readdirnames fs cfg paths n = .ok (ns.take n.toNat)) ∧
    ((ns.length : Int) ≤ n → Readdirnames fs cfg paths n = .ok ns) := by
  obtain ⟨found, hg, hns⟩ := Readdirnames_zero hres
  constructor
  · intro hlt
    rw [Readdirnames_of_gather hg, ← hns]
    exact limitNames_pos_lt hn hlt
  · intro hge
    rw [Readdirnames_of_gather hg, ← hns]
    exact limitNames_pos_ge hn hge

/-- C8: a successful resolution contains no two entries with the same
base name. -/
theorem c8_no_duplicate_basenames
    (fs : FS) (cfg : Config) (paths ns : List String)
    (hwf : WFListing fs paths)
    (hres : Readdirnames fs cfg paths 0 = .ok ns) :
    (ns.map Base).Nodup := by
  obtain ⟨found, hg, hns⟩ := Readdirnames_zero hres
  obtain ⟨hkeys, hbase⟩ := gatherNames_inv hwf hg
  have hvals : ((found.map Prod.snd).map Base).Nodup := by
    have hmapeq : (found.map Prod.snd).map Base = found.map Prod.fst := by
      rw [List.map_map]
      exact List.map_congr_left hbase
    rw [hmapeq]
    exact hkeys
  rw [hns]
  exact nodup_base_of_perm (sortNames_perm _ _).symm hvals

/-- C10: a negative limit on a successful resolution drives
`Readdirnames` into the `n < len(names)` branch, and the slice
`names[0:n]` with a negative bound is a runtime panic, not a normal
return. -/
theorem c10_negative_limit_panics
    (fs : FS) (cfg : Config) (paths ns : List String) (n : Int)
    (hres : Readdirnames fs cfg paths 0 = .ok ns) (hn : n < 0) :
    Readdirnames fs cfg paths n = .panic := by
  obtain ⟨found, hg, _⟩ := Readdirnames_zero hres
  rw [Readdirnames_of_gather hg]
  exact limitNames_neg hn

/-- C2: when resolution succeeds and every resolved file opens, reading
the stream with repeated `Read` calls until the end-of-stream condition
yields byte-for-byte the concatenation, in resolved order, of the
contents of every file returned by `Readdirnames(0)`, with no boundary
marker; `readAllAux` returns `some` only when the run ends in the normal
`io.EOF` terminal condition, never in an I/O error or panic. -/
theorem c2_stream_equals_concatenation
    (fs : FS) (paths : List String) (cfg : Config) (ns : List String)
    (k fuel : Nat)
    (hres : Readdirnames fs cfg paths 0 = .ok ns)
    (hopen : ∀ nm ∈ ns, (fs.openFile nm).isSome)
    (hk : 0 < k)
    (hfuel : ((ns.map (fileContents fs)).map List.length).sum +
      ns.length + 1 ≤ fuel) :
    readAllAux fs ⟨paths, cfg, none⟩ k fuel =
      some (ns.map (fileContents fs)).flatten := by
  cases fuel with
  | zero =>
    exfalso
    omega
  | succ f =>
    have hinit := PRead_uninitialized fs paths cfg k ns hres hopen
    rw [readAllAux_succ, hinit, ← readAllAux_succ]
    apply readAll_drain fs hk
    rw [List.length_map]
    exact hfuel

/-- C7: a fresh directory-discovered candidate is recorded iff its base
name matches the configured pattern AND its mode intersects the
permission mask AND it intersects the type mask; a fresh directly
specified (non-directory) path is recorded iff the two mask tests pass —
the name pattern is not consulted at all. -/
theorem c7_filter_characterization
    (fs : FS) (cfg : Config) (p nm q : String) (m mq : Nat)
    (found found2 : FoundNames)
    (hstat : StatMode fs (pjoin p nm) = some m)
    (habs : lookupName found nm = none)
    (hstatq : StatMode fs q = some mq) (hqdir : IsDir mq = false)
    (habs2 : lookupName found2 (Base q) = none) :
    (insertChild fs cfg p found nm = some (found ++ [(nm, pjoin p nm)]) ↔
      (cfg.RegExpFilter nm = true ∧ m &&& cfg.ModePermFilter ≠ 0 ∧
        m &&& cfg.ModeTypeFilter ≠ 0)) ∧
    (insertChild fs cfg p found nm = some found ↔
      ¬(cfg.RegExpFilter nm = true ∧ m &&& cfg.ModePermFilter ≠ 0 ∧
        m &&& cfg.ModeTypeFilter ≠ 0)) ∧
    (processPath fs cfg found2 q = some (found2 ++ [(Base q, q)]) ↔
      (mq &&& cfg.ModePermFilter ≠ 0 ∧ mq &&& cfg.ModeTypeFilter ≠ 0)) := by
  obtain ⟨h1, h2⟩ := insertChild_fresh_iff hstat habs
  exact ⟨h1.trans (filter_some_iff cfg nm m cfg.RegExpFilter),
    h2.trans (not_congr (filter_some_iff cfg nm m cfg.RegExpFilter)),
    (processPath_direct_iff hstatq hqdir habs2).trans
      (filter_none_iff cfg (Base q) mq)⟩

/-- C3 (code bug): with a read state whose handle releases fail, `Close`
still iterates over every stored handle and resets the read state, but
the guard `tmpErr != nil && err != nil` can never assign `err` (which
starts out nil), so `Close` returns nil instead of one representative
error; with no read state it returns nil, as documented. -/
theorem c3_close_returns_nil_on_failed_release :
    (Close ⟨[], ⟨false, ModeRegular, ModePerm, fun _ => true⟩,
      some ⟨[false, false, true], some []⟩⟩).1 = false ∧
    (Close ⟨[], ⟨false, ModeRegular, ModePerm, fun _ => true⟩,
      some ⟨[false, false, true], some []⟩⟩).2.readState = none ∧
    (Close ⟨[], ⟨false, ModeRegular, ModePerm, fun _ => true⟩, none⟩).1 =
      false := by
  decide

/-- The configuration used by the concrete counterexample and witness
sessions: forward order, regular-file type mask, `0777` permission mask,
match-all pattern. -/
def cfgW : Config := ⟨false, ModeRegular, ModePerm, fun _ => true⟩

/-- A filesystem on which resolution succeeds with files `d/a` and `d/b`
but opening `d/b` fails. -/
def fsBug : FS where
  stat := fun s =>
    if s = "d" then some (2 ^ 31 ||| 0o755)
    else if s = "d/a" then some 0o644
    else if s = "d/b" then some 0o644
    else none
  lstat := fun _ => none
  readDir := fun s => if s = "d" then some ["a", "b"] else none
  openFile := fun s => if s = "d/a" then some (true, [7]) else none

/-- C4 (code bug): on `fsBug`, resolution succeeds with `[d/a, d/b]` and
opening `d/b` fails.  The first `Read` returns the error, but
`p.readState` was allocated before the open loop, so the session keeps a
half-initialized read state (`Files` = the already-opened `d/a`,
`Reader` = nil) exposed for reuse, and the next `Read` dereferences the
nil `Reader` — a panic — instead of behaving as a fresh first read. -/
theorem c4_read_open_failure_keeps_half_state :
    Readdirnames fsBug cfgW ["d"] 0 = .ok ["d/a", "d/b"] ∧
    fsBug.openFile "d/b" = none ∧
    (PRead fsBug ⟨["d"], cfgW, none⟩ 8).1 = .errR ∧
    (PRead fsBug ⟨["d"], cfgW, none⟩ 8).2.readState = some ⟨[true], none⟩ ∧
    (PRead fsBug ((PRead fsBug ⟨["d"], cfgW, none⟩ 8).2) 8).1 = .panicR := by
  decide

/-- C9 (code bug): `StatMode`'s adjustment keeps the permission bits
while adding the explicit regular bit, but the `FileInfo.Mode` accessor
returns the bare `ModeRegular` constant for a regular file, discarding
every permission bit; the failing input is a regular file with native
mode `0644` (no type bits set). -/
theorem c9_fileinfo_mode_drops_perm_bits :
    FileInfoMode 0o644 = ModeRegular ∧
    Perm (FileInfoMode 0o644) = 0 ∧
    IsRegular (FileInfoMode 0o644) = true ∧
    statAdjust 0o644 = (0o644 ||| ModeRegular) ∧
    Perm (statAdjust 0o644) = 0o644 := by
  decide

/-! ## Witness fixtures and witnesses -/

/-- The witness filesystem: directories `etc` and `lib` share the child
base name `a.conf`; `solo.conf` is a directly specified file. -/
def fsW : FS where
  stat := fun s =>
    if s = "etc" then some (2 ^ 31 ||| 0o755)
    else if s = "lib" then some (2 ^ 31 ||| 0o755)
    else if s = "solo.conf" then some 0o644
    else if s = "etc/a.conf" then some 0o644
    else if s = "etc/b.conf" then some 0o644
    else if s = "lib/a.conf" then some 0o600
    else if s = "lib/c.conf" then some 0o644
    else none
  lstat := fun _ => none
  readDir := fun s =>
    if s = "etc" then some ["a.conf", "b.conf"]
    else if s = "lib" then some ["a.conf", "c.conf"]
    else none
  openFile := fun s =>
    if s = "etc/a.conf" then some (true, [1])
    else if s = "etc/b.conf" then some (true, [2, 3])
    else if s = "lib/c.conf" then some (true, [])
    else if s = "solo.conf" then some (true, [4])
    else none

theorem c1_earliest_path_wins_witness :
    WFListing fsW ["etc", "lib"] ∧
    StatMode fsW "etc" = some (2 ^ 31 ||| 0o755) ∧
    IsDir (2 ^ 31 ||| 0o755) = true ∧
    fsW.readDir "etc" = some ["a.conf", "b.conf"] ∧
    "a.conf" ∈ ["a.conf", "b.conf"] ∧
    StatMode fsW (pjoin "etc" "a.conf") = some (0o644 ||| ModeRegular) ∧
    filter cfgW "a.conf" (0o644 ||| ModeRegular) (some cfgW.RegExpFilter) =
      true ∧
    gatherNames fsW cfgW ["etc", "lib"] =
      some [("a.conf", "etc/a.conf"), ("b.conf", "etc/b.conf"),
        ("c.conf", "lib/c.conf")] ∧
    ("etc" : String) ≠ "lib" ∧
    (lookupName [("a.conf", "etc/a.conf"), ("b.conf", "etc/b.conf"),
        ("c.conf", "lib/c.conf")] "a.conf" = some (pjoin "etc" "a.conf") ∧
      (∀ v, ("a.conf", v) ∈ [("a.conf", "etc/a.conf"),
          ("b.conf", "etc/b.conf"), ("c.conf", "lib/c.conf")] →
        v = pjoin "etc" "a.conf") ∧
      ∃ ns, Readdirnames fsW cfgW ["etc", "lib"] 0 = .ok ns ∧
        pjoin "etc" "a.conf" ∈ ns ∧ pjoin "lib" "a.conf" ∉ ns) :=
  ⟨by decide, by decide, by decide, by decide, by decide, by decide,
    by decide, by decide, by decide,
    c1_earliest_path_wins fsW cfgW "etc" "lib" "a.conf"
      (2 ^ 31 ||| 0o755) (0o644 ||| ModeRegular) ["a.conf", "b.conf"]
      [("a.conf", "etc/a.conf"), ("b.conf", "etc/b.conf"),
        ("c.conf", "lib/c.conf")]
      (by decide) (by decide) (by decide) (by decide) (by decide)
      (by decide) (by decide) (by decide) (by decide)⟩

theorem c2_stream_equals_concatenation_witness :
    Readdirnames fsW cfgW ["etc", "solo.conf", "lib"] 0 =
      .ok ["etc/a.conf", "etc/b.conf", "lib/c.conf", "solo.conf"] ∧
    (∀ nm ∈ ["etc/a.conf", "etc/b.conf", "lib/c.conf", "solo.conf"],
      (fsW.openFile nm).isSome) ∧
    0 < 3 ∧
    (((["etc/a.conf", "etc/b.conf", "lib/c.conf",
        "solo.conf"].map (fileContents fsW)).map List.length).sum +
      (["etc/a.conf", "etc/b.conf", "lib/c.conf",
        "solo.conf"] : List String).length + 1 ≤ 20) ∧
    readAllAux fsW ⟨["etc", "solo.conf", "lib"], cfgW, none⟩ 3 20 =
      some (["etc/a.conf", "etc/b.conf", "lib/c.conf",
        "solo.conf"].map (fileContents fsW)).flatten :=
  ⟨by decide, by decide, by decide, by decide,
    c2_stream_equals_concatenation fsW ["etc", "solo.conf", "lib"] cfgW
      ["etc/a.conf", "etc/b.conf", "lib/c.conf", "solo.conf"] 3 20
      (by decide) (by decide) (by decide) (by decide)⟩

theorem c5_sorted_by_basename_and_reverse_witness :
    WFListing fsW ["etc", "solo.conf", "lib"] ∧
    Readdirnames fsW ⟨false, ModeRegular, ModePerm, fun _ => true⟩
      ["etc", "solo.conf", "lib"] 0 =
      .ok ["etc/a.conf", "etc/b.conf", "lib/c.conf", "solo.conf"] ∧
    ((["etc/a.conf", "etc/b.conf", "lib/c.conf",
        "solo.conf"] : List String).Pairwise
      (fun a b => baseLess a b = true) ∧
      Readdirnames fsW ⟨true, ModeRegular, ModePerm, fun _ => true⟩
        ["etc", "solo.conf", "lib"] 0 =
        .ok (["etc/a.conf", "etc/b.conf", "lib/c.conf",
          "solo.conf"] : List String).reverse) :=
  ⟨by decide, by decide,
    c5_sorted_by_basename_and_reverse fsW ModeRegular ModePerm
      (fun _ => true) ["etc", "solo.conf", "lib"]
      ["etc/a.conf", "etc/b.conf", "lib/c.conf", "solo.conf"]
      (by decide) (by decide)⟩

theorem c6_limit_semantics_witness :
    Readdirnames fsW cfgW ["etc", "solo.conf", "lib"] 0 =
      .ok ["etc/a.conf", "etc/b.conf", "lib/c.conf", "solo.conf"] ∧
    (0 : Int) < 2 ∧
    (((2 : Int) < ((["etc/a.conf", "etc/b.conf", "lib/c.conf",
        "solo.conf"] : List String).length : Int) →
      Readdirnames fsW cfgW ["etc", "solo.conf", "lib"] 2 =
        .ok (["etc/a.conf", "etc/b.conf", "lib/c.conf",
          "solo.conf"].take (2 : Int).toNat)) ∧
      (((["etc/a.conf", "etc/b.conf", "lib/c.conf",
        "solo.conf"] : List String).length : Int) ≤ 2 →
      Readdirnames fsW cfgW ["etc", "solo.conf", "lib"] 2 =
        .ok ["etc/a.conf", "etc/b.conf", "lib/c.conf", "solo.conf"])) :=
  ⟨by decide, by decide,
    c6_limit_semantics fsW cfgW ["etc", "solo.conf", "lib"]
      ["etc/a.conf", "etc/b.conf", "lib/c.conf", "solo.conf"] 2
      (by decide) (by decide)⟩

theorem c7_filter_characterization_witness :
    StatMode fsW (pjoin "etc" "a.conf") = some (0o644 ||| ModeRegular) ∧
    lookupName [] "a.conf" = none ∧
    StatMode fsW "solo.conf" = some (0o644 ||| ModeRegular) ∧
    IsDir (0o644 ||| ModeRegular) = false ∧
    lookupName [] (Base "solo.conf") = none ∧
    ((insertChild fsW cfgW "etc" [] "a.conf" =
        some ([] ++ [("a.conf", pjoin "etc" "a.conf")]) ↔
      (cfgW.RegExpFilter "a.conf" = true ∧
        (0o644 ||| ModeRegular) &&& cfgW.ModePermFilter ≠ 0 ∧
        (0o644 ||| ModeRegular) &&& cfgW.ModeTypeFilter ≠ 0)) ∧
    (insertChild fsW cfgW "etc" [] "a.conf" = some [] ↔
      ¬(cfgW.RegExpFilter "a.conf" = true ∧
        (0o644 ||| ModeRegular) &&& cfgW.ModePermFilter ≠ 0 ∧
        (0o644 ||| ModeRegular) &&& cfgW.ModeTypeFilter ≠ 0)) ∧
    (processPath fsW cfgW [] "solo.conf" =
        some ([] ++ [(Base "solo.conf", "solo.conf")]) ↔
      ((0o644 ||| ModeRegular) &&& cfgW.ModePermFilter ≠ 0 ∧
        (0o644 ||| ModeRegular) &&& cfgW.ModeTypeFilter ≠ 0))) :=
  ⟨by decide, by decide, by decide, by decide, by decide,
    c7_filter_characterization fsW cfgW "etc" "a.conf" "solo.conf"
      (0o644 ||| ModeRegular) (0o644 ||| ModeRegular) [] []
      (by decide) (by decide) (by decide) (by decide) (by decide)⟩

theorem c8_no_duplicate_basenames_witness :
    WFListing fsW ["etc", "solo.conf", "lib"] ∧
    Readdirnames fsW cfgW ["etc", "solo.conf", "lib"] 0 =
      .ok ["etc/a.conf", "etc/b.conf", "lib/c.conf", "solo.conf"] ∧
    ((["etc/a.conf", "etc/b.conf", "lib/c.conf",
      "solo.conf"] : List String).map Base).Nodup :=
  ⟨by decide, by decide,
    c8_no_duplicate_basenames fsW cfgW ["etc", "solo.conf", "lib"]
      ["etc/a.conf", "etc/b.conf", "lib/c.conf", "solo.conf"]
      (by decide) (by decide)⟩

theorem c10_negative_limit_panics_witness :
    Readdirnames fsW cfgW ["etc", "solo.conf", "lib"] 0 =
      .ok ["etc/a.conf", "etc/b.conf", "lib/c.conf", "solo.conf"] ∧
    (-1 : Int) < 0 ∧
    Readdirnames fsW cfgW ["etc", "solo.conf", "lib"] (-1) = .panic :=
  ⟨by decide, by decide,
    c10_negative_limit_panics fsW cfgW ["etc", "solo.conf", "lib"]
      ["etc/a.conf", "etc/b.conf", "lib/c.conf", "solo.conf"] (-1)
      (by decide) (by decide)⟩

end Parts
